import Mathlib

/-!
# Verification of the de Casteljau / blossom / subdivision kernel

This development is a shallow embedding of `src/geometry/bezier/deCasteljau.h`
(namespace `Geometry::Bezier`).  The C++ code is generic over a point type
drawn from an affine space: the only operation it requires is
`P + t * (Q - P)`.  We model the point type as a module over `ℚ` (exact
arithmetic in place of the C++ `float` scalars) and translate each function:

* `deCasteljau`   — the uniform-parameter evaluator (lines 96–106);
* `blossom`       — the multi-parameter evaluator with its length assertion
                    (lines 120–132), modelled as `Option` (`none` = the
                    assertion fires before any output is produced);
* `subdividePoint` — the single-point subdivision overload (lines 149–167),
                    with `idx : ℤ` so that out-of-range indices can be
                    examined (the C++ `idx` is an `int`);
* `subdivide`     — the batch overload (lines 183–233) together with a
                    faithful model of the flat triangular `DeCasteljauScheme`
                    storage (lines 13–82): `offset`, `schemeGet`, `schemeSet`,
                    `schemeLast`, `fillPhase`, `recomputePass`.

The in-place inner loop
`points[i] = points[i] + t * (points[i+1] - points[i])` is modelled by
`iterOnce`, a left-to-right fold of `List.set` updates, exactly mirroring the
sequential writes of the C++ loop.

On top of the embedding we develop the mathematical layer (`reduceStep`,
`reduceRun`, `mblossom`) used to state and prove the blossom/subdivision
properties claimed by the specification.
-/

namespace CAGD

variable {Point : Type} [AddCommGroup Point] [Module ℚ Point]

/-- Affine interpolation `p + t * (q - p)`, the single arithmetic expression
used throughout `deCasteljau.h`. -/
def lerp (t : ℚ) (p q : Point) : Point := p + t • (q - p)

/-- One live step of the triangular recurrence: replace each adjacent pair by
its `lerp`.  This is the mathematical content of one iteration of the C++
inner loop restricted to the still-live prefix. -/
def reduceStep (t : ℚ) : List Point → List Point
  | p :: q :: rest => lerp t p q :: reduceStep t (q :: rest)
  | _ => []

/-- Run the recurrence once per scalar in `ts`, in order. -/
def reduceRun (P : List Point) (ts : List ℚ) : List Point :=
  ts.foldl (fun v t => reduceStep t v) P

/-- The blossom of the control polygon `P` at the parameter tuple `ts`
(the head of the fully reduced list; `0` is unreachable junk for the
argument shapes we use). -/
def mblossom (P : List Point) (ts : List ℚ) : Point :=
  (reduceRun P ts).headD 0

/-!
## The embedded code

`iterOnce t count v` is one iteration of the C++ inner loop
`for (pointIdx = 0; pointIdx < count; ++pointIdx)
   points[pointIdx] = points[pointIdx] + t * (points[pointIdx+1] - points[pointIdx]);`
performed as the same sequence of in-place writes (`List.set`), left to
right.  Reads past the end of the list return the junk value `0`
(the C++ would be reading out of bounds there; no claim depends on it).
-/

def iterOnce (t : ℚ) (count : ℕ) (v : List Point) : List Point :=
  (List.range count).foldl
    (fun w i => w.set i (lerp t (w.getD i 0) (w.getD (i+1) 0))) v

/-- Run `iterOnce` once per scalar in `σ`, at iteration indices
`a, a+1, …`, each with the C++ loop count `numPoints - iteration`. -/
def iterChain (n : ℕ) : List ℚ → ℕ → List Point → List Point
  | [], _, v => v
  | t :: ts, a, v => iterChain n ts (a+1) (iterOnce t (n - a) v)

/-!
## The four public operations

These are direct translations of the C++ functions.  Loops
`for (x = lo; x < hi; ++x)` become folds over `List.range' lo (hi - lo)`
(for `int` loop variables that stay non-negative) or over `intRange lo hi`
(for the loops of the single-point `subdivide`, whose bounds are signed
expressions in `idx`).
-/

/-- The list of integers `lo, lo+1, …, hi-1` (empty when `hi ≤ lo`). -/
def intRange (lo hi : ℤ) : List ℤ :=
  (List.range (hi - lo).toNat).map (fun (j : ℕ) => lo + (j : ℤ))

/-- `deCasteljau.h` lines 96–106: evaluate the curve at `t` by running
`numPoints - 1` in-place interpolation passes and returning `points[0]`. -/
def deCasteljau (points : List Point) (t : ℚ) : Point :=
  ((List.range' 1 (points.length - 1)).foldl
    (fun v it => iterOnce t (points.length - it) v) points).headD 0

/-- `deCasteljau.h` lines 120–132: the same loop with `params[iteration-1]`
in place of `t`, guarded by `assert(params.size() == points.size() - 1)`.
The `size_t` comparison `params.size() == points.size() - 1` is
`params.size() + 1 == points.size()` for every non-empty `points` (and
unsatisfiable for empty `points`, where `points.size() - 1` wraps around).
`none` models the assertion firing before any output is produced. -/
def blossom (points : List Point) (params : List ℚ) : Option Point :=
  if params.length + 1 = points.length then
    some (((List.range' 1 (points.length - 1)).foldl
      (fun v it => iterOnce (params.getD (it - 1) 0) (points.length - it) v)
      points).headD 0)
  else none

/-- `deCasteljau.h` lines 149–167: run the first `endT0 - 1` iterations with
`t0` and the remaining ones with `t1`, then return `points[0]`.  `idx` is an
`int` in the C++ with no validity check, so it is `ℤ` here; the loop bounds
`endT0 = numPoints - idx` and `numPoints` are the signed C++ expressions. -/
def subdividePoint (points : List Point) (idx : ℤ) (t0 t1 : ℚ) : Point :=
  ((intRange ((points.length : ℤ) - idx) (points.length : ℤ)).foldl
    (fun v it => iterOnce t1 (((points.length : ℤ) - it).toNat) v)
    ((intRange 1 ((points.length : ℤ) - idx)).foldl
      (fun v it => iterOnce t0 (((points.length : ℤ) - it).toNat) v)
      points)).headD 0

/-!
## The triangular scheme and batch subdivision

`DeCasteljauScheme` stores all columns contiguously in one vector; column `c`
starts at flat index `((2*numPoints - c + 1) * c) / 2`.  We model the vector
as a `List Point`; `operator()` reads/writes become `getD`/`set` at the
computed flat index, `push_back` becomes an append, and `last()` reads the
final element.
-/

/-- Flat index of row 0 of column `c` (`deCasteljau.h` lines 46/64). -/
def offset (n c : ℕ) : ℕ := ((2 * n - c + 1) * c) / 2

/-- `DeCasteljauScheme::operator()` (read). -/
def schemeGet (n : ℕ) (s : List Point) (c i : ℕ) : Point :=
  s.getD (offset n c + i) 0

/-- `DeCasteljauScheme::operator()` (write target). -/
def schemeSet (n : ℕ) (s : List Point) (c i : ℕ) (p : Point) : List Point :=
  s.set (offset n c + i) p

/-- `DeCasteljauScheme::last()`. -/
def schemeLast (s : List Point) : Point := s.getD (s.length - 1) 0

/-- Batch `subdivide`, first phase (`deCasteljau.h` lines 196–207): populate
every remaining column with parameter `t0` by `push_back`. -/
def fillPhase (t0 : ℚ) (n : ℕ) (s : List Point) : List Point :=
  (List.range' 1 (n - 1)).foldl (fun s1 it =>
    (List.range (n - it)).foldl (fun s2 pi =>
      s2 ++ [lerp t0 (schemeGet n s2 (it - 1) pi) (schemeGet n s2 (it - 1) (pi + 1))])
      s1) s

/-- Batch `subdivide`, recomputation pass for output point `k`
(`deCasteljau.h` lines 217–225): overwrite columns `n - k … n - 1` in place
using `t1`. -/
def recomputePass (t1 : ℚ) (n : ℕ) (k : ℕ) (s : List Point) : List Point :=
  (List.range' (n - k) k).foldl (fun s1 it =>
    (List.range (n - it)).foldl (fun s2 pi =>
      schemeSet n s2 it pi
        (lerp t1 (schemeGet n s2 (it - 1) pi) (schemeGet n s2 (it - 1) (pi + 1))))
      s1) s

/-- Batch `subdivide` (`deCasteljau.h` lines 183–233): fill the scheme with
`t0`, emit its last entry, then for every further output point recompute the
trailing columns with `t1` and emit the last entry again. -/
def subdivide (points : List Point) (t0 t1 : ℚ) : List Point :=
  ((List.range' 1 (points.length - 1)).foldl
    (fun acc k =>
      (acc.1 ++ [schemeLast (recomputePass t1 points.length k acc.2)],
        recomputePass t1 points.length k acc.2))
    ([schemeLast (fillPhase t0 points.length points)],
      fillPhase t0 points.length points)).1

/-- Specification of the scheme contents after the fill phase (`k = 0`) and
after each recomputation pass `k`: columns sharing at most `n - 1 - k`
`t0`-iterations are still pure-`t0`; later columns carry the trailing `t1`
iterations of output point `k`. -/
def schemeCols (P : List Point) (t0 t1 : ℚ) (k c : ℕ) : List Point :=
  if c + k < P.length then reduceRun P (List.replicate c t0)
  else reduceRun P (List.replicate (P.length - 1 - k) t0 ++
    List.replicate (c - (P.length - 1 - k)) t1)

@[simp] theorem lerp_self (t : ℚ) (p : Point) : lerp t p p = p := by
  simp [lerp]

@[simp] theorem lerp_zero (p q : Point) : lerp 0 p q = p := by
  simp [lerp]

@[simp] theorem lerp_one (p q : Point) : lerp 1 p q = q := by
  simp [lerp]

@[simp] theorem reduceStep_nil (t : ℚ) : reduceStep t ([] : List Point) = [] := rfl

@[simp] theorem reduceStep_single (t : ℚ) (p : Point) : reduceStep t [p] = [] := rfl

@[simp] theorem reduceStep_cons_cons (t : ℚ) (p q : Point) (rest : List Point) :
    reduceStep t (p :: q :: rest) = lerp t p q :: reduceStep t (q :: rest) := rfl

@[simp] theorem reduceStep_length (t : ℚ) (L : List Point) :
    (reduceStep t L).length = L.length - 1 := by
  induction L with
  | nil => rfl
  | cons p rest ih =>
    cases rest with
    | nil => rfl
    | cons q rest' => simp [reduceStep, ih]

theorem reduceRun_nil (P : List Point) : reduceRun P [] = P := rfl

theorem reduceRun_cons (P : List Point) (t : ℚ) (ts : List ℚ) :
    reduceRun P (t :: ts) = reduceRun (reduceStep t P) ts := rfl

theorem reduceRun_append (P : List Point) (ts us : List ℚ) :
    reduceRun P (ts ++ us) = reduceRun (reduceRun P ts) us := by
  simp [reduceRun, List.foldl_append]

theorem reduceRun_length (P : List Point) (ts : List ℚ) :
    (reduceRun P ts).length = P.length - ts.length := by
  induction ts generalizing P with
  | nil => simp [reduceRun]
  | cons t ts ih =>
    rw [reduceRun_cons, ih]
    simp only [reduceStep_length, List.length_cons]
    omega

/-- The fundamental interchange identity for affine interpolation: the two
orders of iterated `lerp` agree.  This makes the triangular recurrence
symmetric in its parameters. -/
theorem lerp_interchange (s t : ℚ) (a b a' b' : Point) :
    lerp t (lerp s a b) (lerp s a' b') = lerp s (lerp t a a') (lerp t b b') := by
  simp only [lerp, smul_sub, smul_add, smul_smul]
  rw [mul_comm s t]
  abel

/-- Adjacent steps of the recurrence with different parameters commute. -/
theorem reduceStep_comm (s t : ℚ) (L : List Point) :
    reduceStep s (reduceStep t L) = reduceStep t (reduceStep s L) := by
  induction L with
  | nil => rfl
  | cons p rest ih =>
    cases rest with
    | nil => rfl
    | cons q rest' =>
      cases rest' with
      | nil => rfl
      | cons r rest'' =>
        have htail : reduceStep s (reduceStep t (q :: r :: rest'')) =
            reduceStep t (reduceStep s (q :: r :: rest'')) := ih
        simp only [reduceStep_cons_cons] at htail ⊢
        rw [htail, lerp_interchange]

/-- The recurrence run is invariant under permutation of the parameter
tuple: the blossom is a symmetric function of its parameters. -/
theorem reduceRun_perm (P : List Point) {ts ts' : List ℚ} (h : ts.Perm ts') :
    reduceRun P ts = reduceRun P ts' := by
  unfold reduceRun
  exact h.foldl_eq' (fun x _ y _ z => reduceStep_comm y x z) P

theorem mblossom_perm (P : List Point) {ts ts' : List ℚ} (h : ts.Perm ts') :
    mblossom P ts = mblossom P ts' := by
  unfold mblossom
  rw [reduceRun_perm P h]

theorem reduceStep_zero (L : List Point) : reduceStep 0 L = L.dropLast := by
  induction L with
  | nil => rfl
  | cons p rest ih =>
    cases rest with
    | nil => rfl
    | cons q rest' =>
      simp only [reduceStep_cons_cons, lerp_zero, ih, List.dropLast_cons₂]

theorem reduceStep_one (L : List Point) : reduceStep 1 L = L.tail := by
  induction L with
  | nil => rfl
  | cons p rest ih =>
    cases rest with
    | nil => rfl
    | cons q rest' =>
      simp only [reduceStep_cons_cons, lerp_one, ih, List.tail_cons]

theorem reduceRun_replicate_zero (P : List Point) (m : ℕ) :
    reduceRun P (List.replicate m 0) = P.take (P.length - m) := by
  induction m generalizing P with
  | zero => simp [reduceRun]
  | succ m ih =>
    rw [List.replicate_succ, reduceRun_cons, ih, reduceStep_zero,
      List.dropLast_eq_take, List.take_take, List.length_take]
    congr 1
    omega

theorem reduceRun_replicate_one (P : List Point) (m : ℕ) :
    reduceRun P (List.replicate m 1) = P.drop m := by
  induction m generalizing P with
  | zero => simp [reduceRun]
  | succ m ih =>
    rw [List.replicate_succ, reduceRun_cons, ih, reduceStep_one]
    cases P <;> simp

/-- `reduceStep` commutes with pointwise affine combination of two equally
long lists. -/
theorem reduceStep_zipWith_lerp (s t : ℚ) (A : List Point) : ∀ B : List Point,
    A.length = B.length →
    reduceStep t (List.zipWith (lerp s) A B) =
      List.zipWith (lerp s) (reduceStep t A) (reduceStep t B) := by
  induction A with
  | nil =>
    intro B h
    cases B with
    | nil => rfl
    | cons b bs => simp at h
  | cons a as ih =>
    intro B h
    cases B with
    | nil => simp at h
    | cons b bs =>
      cases as with
      | nil =>
        cases bs with
        | nil => rfl
        | cons b' bs' => simp at h
      | cons a' as' =>
        cases bs with
        | nil => simp at h
        | cons b' bs' =>
          have ih' := ih (b' :: bs') (by simpa using h)
          simp only [List.zipWith_cons_cons, reduceStep_cons_cons] at ih' ⊢
          rw [ih', lerp_interchange]

theorem reduceRun_zipWith_lerp (s : ℚ) (ts : List ℚ) :
    ∀ (A B : List Point), A.length = B.length →
    reduceRun (List.zipWith (lerp s) A B) ts =
      List.zipWith (lerp s) (reduceRun A ts) (reduceRun B ts) := by
  induction ts with
  | nil => intro A B _; simp [reduceRun]
  | cons t ts ih =>
    intro A B h
    rw [reduceRun_cons, reduceRun_cons, reduceRun_cons,
      reduceStep_zipWith_lerp s t A B h]
    exact ih _ _ (by simp [h])

theorem headD_zipWith_lerp (s : ℚ) (A B : List Point) (h : A.length = B.length) :
    (List.zipWith (lerp s) A B).headD 0 = lerp s (A.headD 0) (B.headD 0) := by
  cases A with
  | nil =>
    cases B with
    | nil => simp
    | cons b bs => simp at h
  | cons a as =>
    cases B with
    | nil => simp at h
    | cons b bs => simp

/-- Affinity of `lerp` in the parameter slot. -/
theorem lerp_param_affine (s t0 t1 : ℚ) (p q : Point) :
    lerp (lerp s t0 t1) p q = lerp s (lerp t0 p q) (lerp t1 p q) := by
  simp only [lerp, smul_eq_mul]
  module

theorem reduceStep_lerp_param (s t0 t1 : ℚ) (L : List Point) :
    reduceStep (lerp s t0 t1) L =
      List.zipWith (lerp s) (reduceStep t0 L) (reduceStep t1 L) := by
  induction L with
  | nil => rfl
  | cons p rest ih =>
    cases rest with
    | nil => rfl
    | cons q rest' =>
      simp only [reduceStep_cons_cons, List.zipWith_cons_cons]
      rw [ih, lerp_param_affine]

/-- The blossom is affine in each parameter slot (stated for the head slot):
this is the multiaffine property of the symmetric blossom. -/
theorem mblossom_cons_lerp (P : List Point) (s t0 t1 : ℚ) (ts : List ℚ) :
    mblossom P (lerp s t0 t1 :: ts) =
      lerp s (mblossom P (t0 :: ts)) (mblossom P (t1 :: ts)) := by
  unfold mblossom
  rw [reduceRun_cons, reduceRun_cons, reduceRun_cons, reduceStep_lerp_param,
    reduceRun_zipWith_lerp s ts _ _ (by simp), headD_zipWith_lerp]
  rw [reduceRun_length, reduceRun_length]
  simp

/-- The blossom is affine in an arbitrary parameter slot. -/
theorem mblossom_slot_lerp (P : List Point) (s t0 t1 : ℚ) (as bs : List ℚ) :
    mblossom P (as ++ lerp s t0 t1 :: bs) =
      lerp s (mblossom P (as ++ t0 :: bs)) (mblossom P (as ++ t1 :: bs)) := by
  rw [mblossom_perm P (@List.perm_middle ℚ (lerp s t0 t1) as bs),
    mblossom_perm P (@List.perm_middle ℚ t0 as bs),
    mblossom_perm P (@List.perm_middle ℚ t1 as bs),
    mblossom_cons_lerp]

theorem map_range_succ_cons {α : Type} (g : ℕ → α) (m : ℕ) :
    (List.range (m+1)).map g = g 0 :: (List.range m).map (fun i => g (i+1)) := by
  rw [List.range_succ_eq_map, List.map_cons, List.map_map]
  rfl

/-- One `reduceStep` on a list presented as a map over `range`. -/
theorem reduceStep_map_range (s : ℚ) : ∀ (m : ℕ) (g : ℕ → Point),
    reduceStep s ((List.range (m+1)).map g) =
      (List.range m).map (fun k => lerp s (g k) (g (k+1))) := by
  intro m
  induction m with
  | zero => intro g; rfl
  | succ m ih =>
    intro g
    rw [map_range_succ_cons g (m+1), map_range_succ_cons (fun i => g (i+1)) m,
      reduceStep_cons_cons, ← map_range_succ_cons (fun i => g (i+1)) m,
      ih (fun i => g (i+1)),
      map_range_succ_cons (fun k => lerp s (g k) (g (k+1))) m]

/-- The key pointwise step: interpolating two adjacent mixed blossoms merges
a `t0` slot and a `t1` slot into a `lerp s t0 t1` slot. -/
theorem lerp_mblossom_step (P : List Point) (t0 t1 s : ℚ) (a j k : ℕ) :
    lerp s
      (mblossom P (List.replicate (a+1) t0 ++
        List.replicate j (lerp s t0 t1) ++ List.replicate k t1))
      (mblossom P (List.replicate a t0 ++
        List.replicate j (lerp s t0 t1) ++ List.replicate (k+1) t1)) =
    mblossom P (List.replicate a t0 ++
      List.replicate (j+1) (lerp s t0 t1) ++ List.replicate k t1) := by
  have h1 : List.replicate (a+1) t0 ++ List.replicate j (lerp s t0 t1) ++
        List.replicate k t1
      = t0 :: (List.replicate a t0 ++
          (List.replicate j (lerp s t0 t1) ++ List.replicate k t1)) := by
    simp [List.replicate_succ, List.append_assoc]
  have h2 : mblossom P (List.replicate a t0 ++
        List.replicate j (lerp s t0 t1) ++ List.replicate (k+1) t1)
      = mblossom P (t1 :: (List.replicate a t0 ++
          (List.replicate j (lerp s t0 t1) ++ List.replicate k t1))) := by
    apply mblossom_perm
    have hp := @List.perm_middle ℚ t1
      (List.replicate a t0 ++ List.replicate j (lerp s t0 t1))
      (List.replicate k t1)
    simp only [List.replicate_succ, List.append_assoc] at hp ⊢
    exact hp
  have h3 : mblossom P (List.replicate a t0 ++
        List.replicate (j+1) (lerp s t0 t1) ++ List.replicate k t1)
      = mblossom P (lerp s t0 t1 :: (List.replicate a t0 ++
          (List.replicate j (lerp s t0 t1) ++ List.replicate k t1))) := by
    apply mblossom_perm
    have hp := @List.perm_middle ℚ (lerp s t0 t1)
      (List.replicate a t0)
      (List.replicate j (lerp s t0 t1) ++ List.replicate k t1)
    simp only [List.replicate_succ, List.append_assoc] at hp ⊢
    exact hp
  rw [h1, h2, h3]
  exact (mblossom_cons_lerp P s t0 t1 _).symm

/-- Running `j` de Casteljau steps with parameter `s` on the subdivided
control polygon turns `j` of the mixed blossom slots into `lerp s t0 t1`. -/
theorem reduceRun_subdivided (P : List Point) (t0 t1 s : ℚ) (n : ℕ) :
    ∀ j, j < n →
    reduceRun ((List.range n).map (fun k =>
        mblossom P (List.replicate (n - 1 - k) t0 ++ List.replicate k t1)))
      (List.replicate j s) =
    (List.range (n - j)).map (fun k =>
        mblossom P (List.replicate (n - 1 - j - k) t0 ++
          List.replicate j (lerp s t0 t1) ++ List.replicate k t1)) := by
  intro j
  induction j with
  | zero =>
    intro _
    simp [reduceRun]
  | succ j ih =>
    intro hj
    rw [List.replicate_succ', reduceRun_append, ih (by omega)]
    have hnj : n - j = (n - (j+1)) + 1 := by omega
    rw [hnj]
    have hrun : reduceRun ((List.range ((n - (j+1)) + 1)).map (fun k =>
        mblossom P (List.replicate (n - 1 - j - k) t0 ++
          List.replicate j (lerp s t0 t1) ++ List.replicate k t1)))
        [s] = reduceStep s ((List.range ((n - (j+1)) + 1)).map (fun k =>
        mblossom P (List.replicate (n - 1 - j - k) t0 ++
          List.replicate j (lerp s t0 t1) ++ List.replicate k t1))) := rfl
    rw [hrun, reduceStep_map_range]
    apply List.map_congr_left
    intro k hk
    have hk' : k < n - (j + 1) := List.mem_range.mp hk
    have e1 : n - 1 - j - k = (n - 2 - j - k) + 1 := by omega
    have e2 : n - 1 - j - (k + 1) = n - 2 - j - k := by omega
    have e3 : n - 1 - (j + 1) - k = n - 2 - j - k := by omega
    rw [e1, e2, e3]
    exact lerp_mblossom_step P t0 t1 s (n - 2 - j - k) j k

/-- Evaluating the subdivided polygon at `s` is the blossom of the original
polygon on the diagonal at `lerp s t0 t1`. -/
theorem mblossom_subdivided (P : List Point) (t0 t1 s : ℚ) (n : ℕ) (h : 1 ≤ n) :
    mblossom ((List.range n).map (fun k =>
        mblossom P (List.replicate (n - 1 - k) t0 ++ List.replicate k t1)))
      (List.replicate (n - 1) s)
    = mblossom P (List.replicate (n - 1) (lerp s t0 t1)) := by
  have hQ := reduceRun_subdivided P t0 t1 s n (n - 1) (by omega)
  have hone : n - (n - 1) = 1 := by omega
  rw [hone] at hQ
  show (reduceRun ((List.range n).map (fun k =>
      mblossom P (List.replicate (n - 1 - k) t0 ++ List.replicate k t1)))
      (List.replicate (n - 1) s)).headD 0 = _
  rw [hQ]
  have hr1 : List.range 1 = [0] := rfl
  rw [hr1]
  simp [mblossom, Nat.sub_self]


@[simp] theorem iterOnce_zero (t : ℚ) (v : List Point) : iterOnce t 0 v = v := rfl

@[simp] theorem iterOnce_length (t : ℚ) (count : ℕ) (v : List Point) :
    (iterOnce t count v).length = v.length := by
  induction count with
  | zero => rfl
  | succ c ih =>
    unfold iterOnce at ih ⊢
    rw [List.range_succ, List.foldl_append, List.foldl_cons, List.foldl_nil,
      List.length_set]
    exact ih

omit [Module ℚ Point] in
theorem getD_set_ne (l : List Point) (i j : ℕ) (w : Point) (h : j ≠ i) :
    (l.set j w).getD i 0 = l.getD i 0 := by
  rw [List.getD_eq_getElem?_getD, List.getD_eq_getElem?_getD,
    List.getElem?_set_ne h]

omit [Module ℚ Point] in
theorem getD_set_self (l : List Point) (j : ℕ) (w : Point) (h : j < l.length) :
    (l.set j w).getD j 0 = w := by
  rw [List.getD_eq_getElem?_getD, List.getElem?_set_self h]
  rfl

omit [Module ℚ Point] in
theorem getD_drop (X : List Point) (m j : ℕ) :
    (X.drop m).getD j 0 = X.getD (m + j) 0 := by
  rw [List.getD_eq_getElem?_getD, List.getD_eq_getElem?_getD, List.getElem?_drop]

omit [Module ℚ Point] in
/-- Two lists are equal when they have the same length and the same `getD`
entries. -/
theorem ext_getD {A B : List Point} (hlen : A.length = B.length)
    (h : ∀ i, i < A.length → A.getD i 0 = B.getD i 0) : A = B := by
  apply List.ext_getElem hlen
  intro i h1 h2
  have hi := h i h1
  rwa [List.getD_eq_getElem _ _ h1, List.getD_eq_getElem _ _ h2] at hi

/-- Entry-wise characterization of one in-place iteration: because the write
to index `i` happens before the reads of indices `i` and `i+1` at later steps,
the sequential loop computes, at every index below `count`, the interpolation
of the two *original* neighbours. -/
theorem iterOnce_getD (t : ℚ) (count : ℕ) (v : List Point) : ∀ i : ℕ,
    (iterOnce t count v).getD i 0 =
      if i < count then lerp t (v.getD i 0) (v.getD (i+1) 0) else v.getD i 0 := by
  induction count with
  | zero => intro i; simp
  | succ c ih =>
    intro i
    have hstep : iterOnce t (c+1) v =
        (iterOnce t c v).set c
          (lerp t ((iterOnce t c v).getD c 0) ((iterOnce t c v).getD (c+1) 0)) := by
      unfold iterOnce
      rw [List.range_succ, List.foldl_append, List.foldl_cons, List.foldl_nil]
    have hc : (iterOnce t c v).getD c 0 = v.getD c 0 := by
      rw [ih c, if_neg (by omega)]
    have hc1 : (iterOnce t c v).getD (c+1) 0 = v.getD (c+1) 0 := by
      rw [ih (c+1), if_neg (by omega)]
    rw [hstep, hc, hc1]
    by_cases hico : i = c
    · subst hico
      by_cases hlen : i < v.length
      · rw [getD_set_self _ _ _ (by rw [iterOnce_length]; exact hlen),
          if_pos (by omega)]
      · push_neg at hlen
        rw [List.getD_eq_default _ _ (by rw [List.length_set, iterOnce_length]; omega),
          if_pos (by omega), List.getD_eq_default _ _ (by omega),
          List.getD_eq_default _ _ (by omega), lerp_self]
    · rw [getD_set_ne _ _ _ _ (by omega), ih i]
      by_cases hi : i < c
      · rw [if_pos hi, if_pos (by omega)]
      · rw [if_neg hi, if_neg (by omega)]

/-- `reduceStep` entrywise. -/
theorem reduceStep_getD (t : ℚ) (L : List Point) (i : ℕ) (h : i + 1 < L.length) :
    (reduceStep t L).getD i 0 = lerp t (L.getD i 0) (L.getD (i+1) 0) := by
  induction L generalizing i with
  | nil => simp at h
  | cons p rest ih =>
    cases rest with
    | nil => simp at h
    | cons q rest' =>
      cases i with
      | zero => simp
      | succ i' =>
        simp only [reduceStep_cons_cons, List.getD_cons_succ]
        exact ih i' (by simpa using h)

/-- The in-place iteration acting on storage whose live prefix is `L`: the
first `L.length - 1` entries become `reduceStep t L`; the remaining entries
(the stale last live value and everything after it) are dragged along. -/
theorem iterOnce_live (t : ℚ) (L rest : List Point) :
    ∃ D : List Point, iterOnce t (L.length - 1) (L ++ rest) = reduceStep t L ++ D := by
  refine ⟨(iterOnce t (L.length - 1) (L ++ rest)).drop (L.length - 1), ?_⟩
  have hlen : (iterOnce t (L.length - 1) (L ++ rest)).length =
      L.length + rest.length := by
    rw [iterOnce_length, List.length_append]
  apply ext_getD
  · rw [List.length_append, reduceStep_length, List.length_drop, hlen]
    omega
  · intro i hi
    rw [hlen] at hi
    by_cases hc : i < L.length - 1
    · rw [iterOnce_getD, if_pos hc,
        List.getD_append _ _ _ _ (by omega),
        List.getD_append _ _ _ _ (by omega),
        List.getD_append _ _ _ _ (by rw [reduceStep_length]; omega),
        reduceStep_getD t L i (by omega)]
    · have hR : (reduceStep t L ++
          (iterOnce t (L.length - 1) (L ++ rest)).drop (L.length - 1)).getD i 0 =
          (L ++ rest).getD i 0 := by
        rw [List.getD_append_right _ _ _ _ (by rw [reduceStep_length]; omega),
          reduceStep_length, getD_drop, iterOnce_getD, if_neg (by omega)]
        congr 1
        omega
      rw [iterOnce_getD, if_neg hc, hR]


@[simp] theorem iterChain_nil (n a : ℕ) (v : List Point) :
    iterChain n [] a v = v := rfl

theorem iterChain_cons (n : ℕ) (t : ℚ) (ts : List ℚ) (a : ℕ) (v : List Point) :
    iterChain n (t :: ts) a v = iterChain n ts (a+1) (iterOnce t (n - a) v) := rfl

theorem iterChain_append (n : ℕ) (σ1 σ2 : List ℚ) : ∀ (a : ℕ) (v : List Point),
    iterChain n (σ1 ++ σ2) a v =
      iterChain n σ2 (a + σ1.length) (iterChain n σ1 a v) := by
  induction σ1 with
  | nil => intro a v; simp
  | cons t ts ih =>
    intro a v
    rw [List.cons_append, iterChain_cons, iterChain_cons, ih]
    congr 1
    simp
    omega

/-- Once the iteration counter reaches `numPoints`, the inner loop bound
`numPoints - iteration` is `0` and every further iteration is a no-op
(in the C++, the negative bound means the inner loop body never runs). -/
theorem iterChain_stall (n : ℕ) (σ : List ℚ) : ∀ (a : ℕ) (v : List Point),
    n ≤ a → iterChain n σ a v = v := by
  induction σ with
  | nil => intro a v _; rfl
  | cons t ts ih =>
    intro a v h
    rw [iterChain_cons, Nat.sub_eq_zero_of_le h, iterOnce_zero]
    exact ih (a+1) v (by omega)

/-- The central bridge: on storage `L ++ rest` whose live prefix is `L`, with
the counter positioned so the current loop count is `L.length - 1`, the chain
computes `reduceRun L σ` as its live prefix. -/
theorem iterChain_live (n : ℕ) (σ : List ℚ) :
    ∀ (L rest : List Point) (a : ℕ), a + L.length = n + 1 → σ.length < L.length →
    ∃ D : List Point, iterChain n σ a (L ++ rest) = reduceRun L σ ++ D := by
  induction σ with
  | nil => intro L rest a _ _; exact ⟨rest, rfl⟩
  | cons t ts ih =>
    intro L rest a ha hlen
    simp only [List.length_cons] at hlen
    rw [iterChain_cons]
    have hcount : n - a = L.length - 1 := by omega
    rw [hcount]
    obtain ⟨D1, hD1⟩ := iterOnce_live t L rest
    rw [hD1]
    obtain ⟨D2, hD2⟩ := ih (reduceStep t L) D1 (a+1)
      (by rw [reduceStep_length]; omega)
      (by rw [reduceStep_length]; omega)
    exact ⟨D2, by rw [hD2, reduceRun_cons]⟩

omit [Module ℚ Point] in
theorem headD_append (A D : List Point) (h : A ≠ []) :
    (A ++ D).headD 0 = A.headD 0 := by
  cases A with
  | nil => exact absurd rfl h
  | cons a as => rfl


/-!
## Bridges from the compiled loops to the mathematical layer
-/

theorem foldl_iterOnce_const (n : ℕ) (t : ℚ) : ∀ (m a : ℕ) (v : List Point),
    (List.range' a m).foldl (fun w it => iterOnce t (n - it) w) v =
      iterChain n (List.replicate m t) a v := by
  intro m
  induction m with
  | zero => intro a v; rfl
  | succ m ih =>
    intro a v
    rw [List.range'_succ, List.foldl_cons, List.replicate_succ, iterChain_cons,
      ih (a+1)]

theorem foldl_iterOnce_getD (n : ℕ) (params : List ℚ) : ∀ (m a : ℕ) (v : List Point),
    (List.range' a m).foldl
        (fun w it => iterOnce (params.getD (it - 1) 0) (n - it) w) v =
      iterChain n ((List.range' a m).map (fun it => params.getD (it - 1) 0)) a v := by
  intro m
  induction m with
  | zero => intro a v; rfl
  | succ m ih =>
    intro a v
    rw [List.range'_succ, List.foldl_cons, List.map_cons, iterChain_cons, ih (a+1)]

omit [AddCommGroup Point] [Module ℚ Point] in
theorem map_getD_range (ps : List ℚ) :
    (List.range ps.length).map (fun j => ps.getD j 0) = ps := by
  induction ps with
  | nil => rfl
  | cons p ps ih =>
    rw [List.length_cons, map_range_succ_cons]
    simp only [List.getD_cons_zero, List.getD_cons_succ]
    rw [ih]

omit [AddCommGroup Point] [Module ℚ Point] in
theorem map_getD_range' (ps : List ℚ) :
    (List.range' 1 ps.length).map (fun it => ps.getD (it - 1) 0) = ps := by
  rw [List.range'_eq_map_range, List.map_map]
  have hfun : ((fun it => ps.getD (it - 1) 0) ∘ (1 + ·)) = fun j => ps.getD j 0 := by
    funext j
    simp [Function.comp, Nat.add_sub_cancel_left]
  rw [hfun, map_getD_range]

theorem deCasteljau_eq_mblossom (points : List Point) (t : ℚ) :
    deCasteljau points t = mblossom points (List.replicate (points.length - 1) t) := by
  by_cases hP : points = []
  · subst hP; rfl
  · have hpos : 1 ≤ points.length := List.length_pos.mpr hP
    unfold deCasteljau
    rw [foldl_iterOnce_const points.length t (points.length - 1) 1 points]
    obtain ⟨D, hD⟩ := iterChain_live points.length
      (List.replicate (points.length - 1) t) points [] 1
      (by omega) (by rw [List.length_replicate]; omega)
    rw [List.append_nil] at hD
    rw [hD, headD_append]
    · rfl
    · have hl : (reduceRun points (List.replicate (points.length - 1) t)).length = 1 := by
        rw [reduceRun_length, List.length_replicate]
        omega
      intro hnil
      rw [hnil] at hl
      simp at hl

theorem blossom_eq_mblossom (points : List Point) (params : List ℚ)
    (h : params.length + 1 = points.length) :
    blossom points params = some (mblossom points params) := by
  unfold blossom
  rw [if_pos h]
  congr 1
  rw [foldl_iterOnce_getD points.length params (points.length - 1) 1 points]
  have hm : points.length - 1 = params.length := by omega
  rw [hm, map_getD_range']
  obtain ⟨D, hD⟩ := iterChain_live points.length params points [] 1
    (by omega) (by omega)
  rw [List.append_nil] at hD
  rw [hD, headD_append]
  · rfl
  · have hl : (reduceRun points params).length = 1 := by
      rw [reduceRun_length]
      omega
    intro hnil
    rw [hnil] at hl
    simp at hl

omit [AddCommGroup Point] [Module ℚ Point] in
theorem intRange_eq_nil (lo hi : ℤ) (h : hi ≤ lo) : intRange lo hi = [] := by
  unfold intRange
  have : (hi - lo).toNat = 0 := by omega
  rw [this]
  rfl

omit [AddCommGroup Point] [Module ℚ Point] in
theorem intRange_cons (lo hi : ℤ) (h : lo < hi) :
    intRange lo hi = lo :: intRange (lo + 1) hi := by
  unfold intRange
  have h1 : (hi - lo).toNat = (hi - (lo + 1)).toNat + 1 := by omega
  rw [h1, map_range_succ_cons]
  congr 1
  · simp
  · apply List.map_congr_left
    intro i _
    push_cast
    ring

/-- A loop of the single-point `subdivide`, repackaged as an `iterChain`
(valid for any natural loop bounds; in particular the inner count
`(numPoints - iteration).toNat` clamps to `0` exactly when the C++ inner
loop body does not run). -/
theorem subdivide_loop_chain (n : ℕ) (t : ℚ) : ∀ (m lo : ℕ) (v : List Point),
    (intRange (lo : ℤ) ((lo + m : ℕ) : ℤ)).foldl
        (fun w it => iterOnce t (((n : ℤ) - it).toNat) w) v =
      iterChain n (List.replicate m t) lo v := by
  intro m
  induction m with
  | zero =>
    intro lo v
    rw [intRange_eq_nil _ _ (by push_cast; omega)]
    rfl
  | succ m ih =>
    intro lo v
    rw [intRange_cons _ _ (by push_cast; omega), List.foldl_cons,
      List.replicate_succ, iterChain_cons]
    have hc : ((n : ℤ) - (lo : ℤ)).toNat = n - lo := by omega
    rw [hc]
    have e1 : (lo : ℤ) + 1 = ((lo + 1 : ℕ) : ℤ) := by push_cast; ring
    have e2 : ((lo + (m + 1) : ℕ) : ℤ) = (((lo + 1) + m : ℕ) : ℤ) := by push_cast; ring
    rw [e1, e2]
    exact ih (lo + 1) (iterOnce t (n - lo) v)

/-- The single-point subdivision at an in-range index is the blossom of the
polygon at `numPoints - idx - 1` copies of `t0` followed by `idx` copies of
`t1`. -/
theorem subdividePoint_eq_mblossom (points : List Point) (idx : ℕ) (t0 t1 : ℚ)
    (h : idx < points.length) :
    subdividePoint points (idx : ℤ) t0 t1 =
      mblossom points (List.replicate (points.length - idx - 1) t0 ++
        List.replicate idx t1) := by
  unfold subdividePoint
  set n := points.length with hn
  have hloop1 : (intRange 1 ((n : ℤ) - (idx : ℤ))).foldl
      (fun v it => iterOnce t0 (((n : ℤ) - it).toNat) v) points =
      iterChain n (List.replicate (n - idx - 1) t0) 1 points := by
    have e0 : (n : ℤ) - (idx : ℤ) = ((1 + (n - idx - 1) : ℕ) : ℤ) := by omega
    have e1 : (1 : ℤ) = ((1 : ℕ) : ℤ) := by norm_num
    rw [e0, e1]
    exact subdivide_loop_chain n t0 (n - idx - 1) 1 points
  have hloop2 : ∀ X : List Point, (intRange ((n : ℤ) - (idx : ℤ)) ((n : ℕ) : ℤ)).foldl
      (fun v it => iterOnce t1 (((n : ℤ) - it).toNat) v) X =
      iterChain n (List.replicate idx t1) (n - idx) X := by
    intro X
    have e0 : (n : ℤ) - (idx : ℤ) = ((n - idx : ℕ) : ℤ) := by omega
    have e2 : ((n : ℕ) : ℤ) = (((n - idx) + idx : ℕ) : ℤ) := by omega
    rw [e0]
    nth_rewrite 2 [e2]
    exact subdivide_loop_chain n t1 idx (n - idx) X
  rw [hloop1, hloop2]
  have hcomb := iterChain_append n (List.replicate (n - idx - 1) t0)
    (List.replicate idx t1) 1 points
  rw [List.length_replicate] at hcomb
  rw [show 1 + (n - idx - 1) = n - idx from by omega] at hcomb
  rw [← hcomb]
  obtain ⟨D, hD⟩ := iterChain_live n
    (List.replicate (n - idx - 1) t0 ++ List.replicate idx t1) points [] 1
    (by omega)
    (by rw [List.length_append, List.length_replicate, List.length_replicate]; omega)
  rw [List.append_nil] at hD
  rw [hD, headD_append]
  · rfl
  · have hl : (reduceRun points (List.replicate (n - idx - 1) t0 ++
        List.replicate idx t1)).length = 1 := by
      rw [reduceRun_length, List.length_append, List.length_replicate,
        List.length_replicate]
      omega
    intro hnil
    rw [hnil] at hl
    simp at hl

/-- For a negative index the single-point subdivision performs no check at
all: the surplus `t0` iterations are no-ops, the `t1` loop is empty, and the
function silently returns the evaluation of the curve at `t0`. -/
theorem subdividePoint_neg_idx (points : List Point) (idx : ℤ) (t0 t1 : ℚ)
    (hn : 1 ≤ points.length) (h : idx < 0) :
    subdividePoint points idx t0 t1 = deCasteljau points t0 := by
  unfold subdividePoint
  set n := points.length with hnn
  set b : ℕ := (-idx).toNat with hb
  have hb1 : 1 ≤ b := by omega
  rw [intRange_eq_nil ((n : ℤ) - idx) ((n : ℕ) : ℤ) (by omega), List.foldl_nil]
  have e0 : (n : ℤ) - idx = ((1 + (n + b - 1) : ℕ) : ℤ) := by omega
  have e1 : (1 : ℤ) = ((1 : ℕ) : ℤ) := by norm_num
  rw [e0, e1, subdivide_loop_chain n t0 (n + b - 1) 1 points]
  have hsplit : List.replicate (n + b - 1) t0 =
      List.replicate (n - 1) t0 ++ List.replicate b t0 := by
    rw [← List.replicate_add]
    congr 1
    omega
  rw [hsplit, iterChain_append, List.length_replicate,
    iterChain_stall n (List.replicate b t0) (1 + (n - 1)) _ (by omega),
    deCasteljau_eq_mblossom]
  obtain ⟨D, hD⟩ := iterChain_live n (List.replicate (n - 1) t0) points [] 1
    (by omega) (by rw [List.length_replicate]; omega)
  rw [List.append_nil] at hD
  rw [hD, headD_append]
  · rfl
  · have hl : (reduceRun points (List.replicate (n - 1) t0)).length = 1 := by
      rw [reduceRun_length, List.length_replicate]
      omega
    intro hnil
    rw [hnil] at hl
    simp at hl


/-!
### Offset arithmetic
-/

omit [AddCommGroup Point] [Module ℚ Point] in
theorem offset_zero (n : ℕ) : offset n 0 = 0 := by
  simp [offset]

omit [AddCommGroup Point] [Module ℚ Point] in
theorem offset_succ (n c : ℕ) (h : c < n) : offset n (c+1) = offset n c + (n - c) := by
  obtain ⟨d, hd⟩ : ∃ d, n = c + d := ⟨n - c, by omega⟩
  subst hd
  unfold offset
  have h1 : 2 * (c + d) - c + 1 = c + 2*d + 1 := by omega
  have h3 : 2 * (c + d) - (c+1) + 1 = c + 2*d := by omega
  have h4 : c + d - c = d := by omega
  rw [h1, h3, h4]
  have heven : 2 ∣ (c + 2*d + 1) * c := by
    rcases Nat.even_or_odd c with he | ho
    · obtain ⟨m, hm⟩ := he
      have h2c : 2 ∣ c := ⟨m, by omega⟩
      exact Dvd.dvd.mul_left h2c _
    · obtain ⟨m, hm⟩ := ho
      have h2x : 2 ∣ (c + 2*d + 1) := ⟨m + d + 1, by omega⟩
      exact Dvd.dvd.mul_right h2x _
  obtain ⟨q, hq⟩ := heven
  have hx : (c + 2*d) * (c+1) = (c + 2*d + 1) * c + 2*d := by ring
  rw [hx, hq]
  omega

omit [AddCommGroup Point] [Module ℚ Point] in
theorem offset_le (n : ℕ) : ∀ (m c : ℕ), c ≤ m → m ≤ n → offset n c ≤ offset n m := by
  intro m
  induction m with
  | zero =>
    intro c hc _
    interval_cases c
    exact Nat.le_refl _
  | succ m ih =>
    intro c hc hm
    by_cases hc' : c = m + 1
    · subst hc'; exact Nat.le_refl _
    · calc offset n c ≤ offset n m := ih c (by omega) (by omega)
        _ ≤ offset n (m+1) := by rw [offset_succ n m (by omega)]; omega

omit [Module ℚ Point] in
theorem getD_zero_eq_headD (l : List Point) : l.getD 0 0 = l.headD 0 := by
  cases l <;> rfl

omit [Module ℚ Point] in
theorem take_getD_succ (L : List Point) (r : ℕ) (h : r < L.length) :
    L.take (r+1) = L.take r ++ [L.getD r 0] := by
  rw [List.take_succ, List.getElem?_eq_getElem h, List.getD_eq_getElem _ _ h]
  rfl

/-!
### The flat storage as a concatenation of columns

A scheme state is `((List.range m).map f).flatten` for a column function
`f` with `(f c).length = n - c`: column `c` occupies flat indices
`offset n c … offset n (c+1) - 1`.
-/

omit [AddCommGroup Point] [Module ℚ Point] in
theorem flatten_map_length (n : ℕ) (f : ℕ → List Point) : ∀ (m : ℕ), m ≤ n →
    (∀ c, c < m → (f c).length = n - c) →
    (((List.range m).map f).flatten).length = offset n m := by
  intro m
  induction m with
  | zero => intro _ _; simp [offset_zero]
  | succ m ih =>
    intro hm hlen
    rw [List.range_succ, List.map_append, List.flatten_append, List.length_append,
      ih (by omega) (fun c hc => hlen c (by omega))]
    simp only [List.map_cons, List.map_nil, List.flatten_cons, List.flatten_nil,
      List.append_nil]
    rw [hlen m (by omega), offset_succ n m (by omega)]

omit [Module ℚ Point] in
theorem flatten_map_getD (n : ℕ) (f : ℕ → List Point) : ∀ (m : ℕ), m ≤ n →
    (∀ c, c < m → (f c).length = n - c) →
    ∀ c i, c < m → i < n - c →
    (((List.range m).map f).flatten).getD (offset n c + i) 0 = (f c).getD i 0 := by
  intro m
  induction m with
  | zero =>
    intro _ _ c i hc _
    exact absurd hc (Nat.not_lt_zero c)
  | succ m ih =>
    intro hm hlen c i hc hi
    rw [List.range_succ, List.map_append, List.flatten_append]
    simp only [List.map_cons, List.map_nil, List.flatten_cons, List.flatten_nil,
      List.append_nil]
    have hJ : (((List.range m).map f).flatten).length = offset n m :=
      flatten_map_length n f m (by omega) (fun c' hc' => hlen c' (by omega))
    by_cases hcm : c < m
    · rw [List.getD_append _ _ _ _ ?hin]
      · exact ih (by omega) (fun c' hc' => hlen c' (by omega)) c i hcm hi
      · rw [hJ]
        calc offset n c + i < offset n c + (n - c) := by omega
          _ = offset n (c+1) := (offset_succ n c (by omega)).symm
          _ ≤ offset n m := offset_le n m (c+1) (by omega) (by omega)
    · have hceq : c = m := by omega
      subst hceq
      rw [List.getD_append_right _ _ _ _ (by rw [hJ]; omega), hJ]
      congr 1
      omega

omit [AddCommGroup Point] [Module ℚ Point] in
theorem flatten_map_set (n : ℕ) (f : ℕ → List Point) (p : Point) : ∀ (m : ℕ), m ≤ n →
    (∀ c', c' < m → (f c').length = n - c') →
    ∀ c i, c < m → i < n - c →
    ((((List.range m).map f).flatten)).set (offset n c + i) p =
      ((List.range m).map (fun x => if x = c then (f c).set i p else f x)).flatten := by
  intro m
  induction m with
  | zero =>
    intro _ _ c i hc _
    exact absurd hc (Nat.not_lt_zero c)
  | succ m ih =>
    intro hm hlen c i hc hi
    rw [List.range_succ, List.map_append, List.flatten_append,
      List.map_append, List.flatten_append]
    simp only [List.map_cons, List.map_nil, List.flatten_cons, List.flatten_nil,
      List.append_nil]
    have hJ : (((List.range m).map f).flatten).length = offset n m :=
      flatten_map_length n f m (by omega) (fun c' hc' => hlen c' (by omega))
    by_cases hcm : c < m
    · rw [List.set_append_left _ _ (by
        rw [hJ]
        calc offset n c + i < offset n c + (n - c) := by omega
          _ = offset n (c+1) := (offset_succ n c (by omega)).symm
          _ ≤ offset n m := offset_le n m (c+1) (by omega) (by omega))]
      rw [ih (by omega) (fun c' hc' => hlen c' (by omega)) c i hcm hi]
      congr 2
      rw [if_neg (by omega)]
    · have hceq : c = m := by omega
      subst hceq
      rw [List.set_append_right _ _ (by rw [hJ]; omega), hJ,
        show offset n c + i - offset n c = i from by omega, if_pos rfl]
      congr 1
      apply congrArg List.flatten
      apply List.map_congr_left
      intro x hx
      rw [if_neg (by simp at hx; omega)]

/-- Inner loop of the fill phase at iteration `it`: with the scheme holding
columns `0 … it-1` (so `push_back` appends at flat index `offset n it`), the
`r` first appends produce the first `r` entries of `reduceStep t0 C`, where
`C` is column `it-1`. -/
theorem fill_inner (t0 : ℚ) (n : ℕ) (S C : List Point) (it : ℕ)
    (hS : S.length = offset n it) (hit : 1 ≤ it) (hitn : it ≤ n)
    (hC : C.length = n - (it - 1))
    (hread : ∀ i, i < n - (it - 1) → S.getD (offset n (it - 1) + i) 0 = C.getD i 0) :
    ∀ r, r ≤ n - it →
    (List.range r).foldl (fun s2 pi =>
        s2 ++ [lerp t0 (schemeGet n s2 (it - 1) pi) (schemeGet n s2 (it - 1) (pi + 1))]) S
      = S ++ (reduceStep t0 C).take r := by
  intro r
  induction r with
  | zero => intro _; simp
  | succ r ih =>
    intro hr
    rw [List.range_succ, List.foldl_append, List.foldl_cons, List.foldl_nil,
      ih (by omega)]
    have hoff : offset n (it - 1) + (n - (it - 1)) = offset n it := by
      have := offset_succ n (it - 1) (by omega)
      rw [show it - 1 + 1 = it from by omega] at this
      omega
    have hget : ∀ j, j < n - (it - 1) →
        schemeGet n (S ++ (reduceStep t0 C).take r) (it - 1) j = C.getD j 0 := by
      intro j hj
      unfold schemeGet
      rw [List.getD_append _ _ _ _ (by rw [hS]; omega)]
      exact hread j hj
    rw [hget r (by omega), hget (r+1) (by omega), List.append_assoc]
    congr 1
    rw [take_getD_succ (reduceStep t0 C) r (by rw [reduceStep_length]; omega),
      reduceStep_getD t0 C r (by omega)]

/-- The fill phase produces exactly the triangular scheme of pure-`t0`
columns. -/
theorem fillPhase_eq (t0 : ℚ) (P : List Point) :
    fillPhase t0 P.length P =
      ((List.range P.length).map
        (fun c => reduceRun P (List.replicate c t0))).flatten := by
  by_cases hP : P.length = 0
  · rw [List.length_eq_zero] at hP
    subst hP
    rfl
  · set n := P.length with hn
    have hlen : ∀ c, c < n → (reduceRun P (List.replicate c t0)).length = n - c := by
      intro c _
      rw [reduceRun_length, List.length_replicate]
    have key : ∀ m, m ≤ n - 1 →
        (List.range' 1 m).foldl (fun s1 it =>
          (List.range (n - it)).foldl (fun s2 pi =>
            s2 ++ [lerp t0 (schemeGet n s2 (it - 1) pi)
              (schemeGet n s2 (it - 1) (pi + 1))]) s1) P
        = ((List.range (m+1)).map
            (fun c => reduceRun P (List.replicate c t0))).flatten := by
      intro m
      induction m with
      | zero =>
        intro _
        show P = ((List.range 1).map (fun c => reduceRun P (List.replicate c t0))).flatten
        rw [show List.range 1 = [0] from rfl]
        simp [reduceRun]
      | succ m ih =>
        intro hm
        rw [List.range'_1_concat, List.foldl_append, List.foldl_cons, List.foldl_nil,
          ih (by omega), show 1 + m = m + 1 from Nat.add_comm 1 m]
        have hfill := fill_inner t0 n
          (((List.range (m+1)).map (fun c => reduceRun P (List.replicate c t0))).flatten)
          (reduceRun P (List.replicate m t0)) (m + 1)
          (flatten_map_length n _ (m+1) (by omega) (fun c hc => hlen c (by omega)))
          (by omega) (by omega)
          (by
            show (reduceRun P (List.replicate m t0)).length = n - m
            rw [reduceRun_length, List.length_replicate])
          (by
            intro i hi
            show (((List.range (m+1)).map
                (fun c => reduceRun P (List.replicate c t0))).flatten).getD
                (offset n m + i) 0 = (reduceRun P (List.replicate m t0)).getD i 0
            exact flatten_map_getD n
              (fun c => reduceRun P (List.replicate c t0)) (m+1) (by omega)
              (fun c hc => hlen c (by omega)) m i (by omega) (by omega))
          (n - (m + 1)) (by omega)
        rw [hfill]
        have hstep : reduceStep t0 (reduceRun P (List.replicate m t0)) =
            reduceRun P (List.replicate (m+1) t0) := by
          rw [List.replicate_succ', reduceRun_append]
          rfl
        rw [List.take_of_length_le (by
            rw [reduceStep_length, reduceRun_length, List.length_replicate]; omega),
          hstep]
        conv_rhs => rw [List.range_succ, List.map_append, List.flatten_append]
        simp only [List.map_cons, List.map_nil, List.flatten_cons, List.flatten_nil,
          List.append_nil]
    unfold fillPhase
    rw [key (n - 1) (by omega), show n - 1 + 1 = n from by omega]

omit [Module ℚ Point] in
/-- Writing entry `r` of an in-place column rewrite advances the
replaced prefix by one. -/
theorem set_take_drop (A B : List Point) (r : ℕ) (v : Point)
    (hA : r < A.length) (hB : r < B.length) (hv : v = A.getD r 0) :
    (A.take r ++ B.drop r).set r v = A.take (r+1) ++ B.drop (r+1) := by
  rw [List.set_append_right _ _ (by rw [List.length_take]; omega),
    List.length_take, show r - min r A.length = 0 from by omega,
    List.drop_eq_getElem_cons hB, List.set_cons_zero,
    take_getD_succ A r hA, List.append_assoc, hv]
  rfl

/-- Inner loop of a recomputation pass: with all columns present, the writes
to column `it` replace it by `reduceStep t1` of column `it - 1` (read from
the same storage), leaving every other column untouched. -/
theorem writeColumn (t1 : ℚ) (n it : ℕ) (g : ℕ → List Point)
    (hlen : ∀ c, c < n → (g c).length = n - c) (hit : 1 ≤ it) (hitn : it < n) :
    (List.range (n - it)).foldl
      (fun s2 pi => schemeSet n s2 it pi
        (lerp t1 (schemeGet n s2 (it - 1) pi) (schemeGet n s2 (it - 1) (pi + 1))))
      (((List.range n).map g).flatten)
    = ((List.range n).map
        (fun c => if c = it then reduceStep t1 (g (it - 1)) else g c)).flatten := by
  have hlenA : (reduceStep t1 (g (it - 1))).length = n - it := by
    rw [reduceStep_length, hlen (it - 1) (by omega)]
    omega
  have key : ∀ r, r ≤ n - it →
      (List.range r).foldl
        (fun s2 pi => schemeSet n s2 it pi
          (lerp t1 (schemeGet n s2 (it - 1) pi) (schemeGet n s2 (it - 1) (pi + 1))))
        (((List.range n).map g).flatten)
      = ((List.range n).map
          (fun c => if c = it
            then (reduceStep t1 (g (it - 1))).take r ++ (g it).drop r
            else g c)).flatten := by
    intro r
    induction r with
    | zero =>
      intro _
      rw [List.range_zero, List.foldl_nil]
      apply congrArg List.flatten
      apply List.map_congr_left
      intro x _
      by_cases hx : x = it
      · rw [if_pos hx, List.take_zero, List.drop_zero, List.nil_append, hx]
      · rw [if_neg hx]
    | succ r ih =>
      intro hr
      have hlenr : ∀ c, c < n →
          ((fun c => if c = it
            then (reduceStep t1 (g (it - 1))).take r ++ (g it).drop r
            else g c) c).length = n - c := by
        intro c hc
        dsimp only
        by_cases hx : c = it
        · rw [if_pos hx, List.length_append, List.length_take, List.length_drop,
            hlenA, hlen it (by omega), hx]
          omega
        · rw [if_neg hx]
          exact hlen c hc
      rw [List.range_succ, List.foldl_append, List.foldl_cons, List.foldl_nil,
        ih (by omega)]
      have hread : ∀ j, j < n - (it - 1) →
          schemeGet n (((List.range n).map
            (fun c => if c = it
              then (reduceStep t1 (g (it - 1))).take r ++ (g it).drop r
              else g c)).flatten) (it - 1) j = (g (it - 1)).getD j 0 := by
        intro j hj
        unfold schemeGet
        rw [flatten_map_getD n _ n (by omega) hlenr (it - 1) j (by omega) hj,
          if_neg (show ¬(it - 1 = it) from by omega)]
      unfold schemeSet
      rw [hread r (by omega), hread (r+1) (by omega),
        flatten_map_set n _ _ n (by omega) hlenr it r (by omega) (by omega)]
      apply congrArg List.flatten
      apply List.map_congr_left
      intro x _
      dsimp only
      by_cases hx : x = it
      · rw [hx]
        simp only [eq_self_iff_true, if_true]
        exact set_take_drop _ _ r _ (by rw [hlenA]; omega)
          (by rw [hlen it (by omega)]; omega)
          (reduceStep_getD t1 _ r
            (by rw [hlen (it - 1) (by omega)]; omega)).symm
      · rw [if_neg hx, if_neg hx, if_neg hx]
  rw [key (n - it) (Nat.le_refl _)]
  apply congrArg List.flatten
  apply List.map_congr_left
  intro x _
  by_cases hx : x = it
  · rw [hx]
    simp only [eq_self_iff_true, if_true]
    rw [List.take_of_length_le (by rw [hlenA]),
      List.drop_eq_nil_of_le (by rw [hlen it (by omega)]),
      List.append_nil]
  · rw [if_neg hx, if_neg hx]

/-- A full recomputation pass over a scheme of columns `g`: columns
`n-k … n-1` become iterated `reduceStep t1` of column `n-k-1`; every earlier
column is untouched. -/
theorem recomputePass_eq (t1 : ℚ) (n k : ℕ) (g : ℕ → List Point)
    (hlen : ∀ c, c < n → (g c).length = n - c) (hk1 : 1 ≤ k) (hkn : k < n) :
    recomputePass t1 n k (((List.range n).map g).flatten) =
      ((List.range n).map (fun c =>
        if n - k ≤ c
        then reduceRun (g (n - k - 1)) (List.replicate (c - (n - k) + 1) t1)
        else g c)).flatten := by
  have hbase : n - k - 1 < n := by omega
  have key : ∀ j, j ≤ k →
      (List.range' (n - k) j).foldl (fun s1 it =>
        (List.range (n - it)).foldl (fun s2 pi =>
          schemeSet n s2 it pi
            (lerp t1 (schemeGet n s2 (it - 1) pi) (schemeGet n s2 (it - 1) (pi + 1))))
          s1) (((List.range n).map g).flatten)
      = ((List.range n).map (fun c =>
          if n - k ≤ c ∧ c < n - k + j
          then reduceRun (g (n - k - 1)) (List.replicate (c - (n - k) + 1) t1)
          else g c)).flatten := by
    intro j
    induction j with
    | zero =>
      intro _
      rw [show List.range' (n - k) 0 = [] from rfl, List.foldl_nil]
      apply congrArg List.flatten
      apply List.map_congr_left
      intro x _
      rw [if_neg (by omega)]
    | succ j ih =>
      intro hj
      have hlenj : ∀ c, c < n →
          ((fun c => if n - k ≤ c ∧ c < n - k + j
            then reduceRun (g (n - k - 1)) (List.replicate (c - (n - k) + 1) t1)
            else g c) c).length = n - c := by
        intro c hc
        dsimp only
        by_cases hcw : n - k ≤ c ∧ c < n - k + j
        · rw [if_pos hcw, reduceRun_length, List.length_replicate,
            hlen (n - k - 1) hbase]
          omega
        · rw [if_neg hcw]
          exact hlen c hc
      rw [List.range'_1_concat, List.foldl_append, List.foldl_cons, List.foldl_nil,
        ih (by omega),
        writeColumn t1 n (n - k + j) _ hlenj (by omega) (by omega)]
      apply congrArg List.flatten
      apply List.map_congr_left
      intro x hx
      have hxn : x < n := by simp at hx; omega
      by_cases hxe : x = n - k + j
      · rw [if_pos hxe,
          if_pos (show n - k ≤ x ∧ x < n - k + (j+1) from by omega), hxe]
        by_cases hj0 : j = 0
        · subst hj0
          rw [if_neg (show ¬(n - k ≤ n - k + 0 - 1 ∧ n - k + 0 - 1 < n - k + 0)
              from by omega),
            show n - k + 0 - (n - k) + 1 = 1 from by omega,
            show n - k + 0 - 1 = n - k - 1 from by omega]
          rfl
        · rw [if_pos (show n - k ≤ n - k + j - 1 ∧ n - k + j - 1 < n - k + j
              from by omega),
            show n - k + j - 1 - (n - k) + 1 = j from by omega,
            show n - k + j - (n - k) + 1 = j + 1 from by omega,
            List.replicate_succ', reduceRun_append]
          rfl
      · rw [if_neg hxe]
        by_cases hcw : n - k ≤ x ∧ x < n - k + j
        · rw [if_pos hcw,
            if_pos (show n - k ≤ x ∧ x < n - k + (j+1) from by omega)]
        · rw [if_neg hcw,
            if_neg (show ¬(n - k ≤ x ∧ x < n - k + (j+1)) from by omega)]
  unfold recomputePass
  rw [key k (Nat.le_refl k)]
  apply congrArg List.flatten
  apply List.map_congr_left
  intro x hx
  have hxn : x < n := by simp at hx; omega
  by_cases hcw : n - k ≤ x
  · rw [if_pos (by omega), if_pos hcw]
  · rw [if_neg (by omega), if_neg hcw]


theorem schemeCols_length (P : List Point) (t0 t1 : ℚ) (k c : ℕ)
    (hc : c < P.length) (hk : k < P.length) :
    (schemeCols P t0 t1 k c).length = P.length - c := by
  unfold schemeCols
  by_cases h : c + k < P.length
  · rw [if_pos h, reduceRun_length, List.length_replicate]
  · rw [if_neg h, reduceRun_length, List.length_append, List.length_replicate,
      List.length_replicate]
    omega

/-- One recomputation pass advances the scheme contents from stage `k - 1`
to stage `k`. -/
theorem pass_state (P : List Point) (t0 t1 : ℚ) (k : ℕ)
    (hn : 1 ≤ P.length) (hk1 : 1 ≤ k) (hk : k ≤ P.length - 1) :
    recomputePass t1 P.length k
      (((List.range P.length).map (schemeCols P t0 t1 (k-1))).flatten) =
    ((List.range P.length).map (schemeCols P t0 t1 k)).flatten := by
  set n := P.length with hnn
  rw [recomputePass_eq t1 n k (schemeCols P t0 t1 (k-1))
    (fun c hc => schemeCols_length P t0 t1 (k-1) c hc (by omega))
    hk1 (by omega)]
  apply congrArg List.flatten
  apply List.map_congr_left
  intro x hx
  have hxn : x < n := by simp at hx; omega
  by_cases hw : n - k ≤ x
  · rw [if_pos hw]
    have hbase : schemeCols P t0 t1 (k-1) (n - k - 1) =
        reduceRun P (List.replicate (n - k - 1) t0) := by
      unfold schemeCols
      rw [if_pos (by omega)]
    rw [hbase, ← reduceRun_append]
    unfold schemeCols
    rw [if_neg (by omega),
      show n - k - 1 = P.length - 1 - k from by omega,
      show x - (n - k) + 1 = x - (P.length - 1 - k) from by omega]
  · rw [if_neg hw]
    unfold schemeCols
    rw [if_pos (by omega), if_pos (by omega)]

/-- The scheme state reached after the fill phase and the first `k`
recomputation passes. -/
theorem schemeState (P : List Point) (t0 t1 : ℚ) (hn : 1 ≤ P.length) :
    ∀ k, k ≤ P.length - 1 →
    (List.range' 1 k).foldl (fun s j => recomputePass t1 P.length j s)
      (fillPhase t0 P.length P)
    = ((List.range P.length).map (schemeCols P t0 t1 k)).flatten := by
  intro k
  induction k with
  | zero =>
    intro _
    rw [show List.range' 1 0 = [] from rfl, List.foldl_nil, fillPhase_eq]
    apply congrArg List.flatten
    apply List.map_congr_left
    intro x hx
    unfold schemeCols
    rw [if_pos (by simp at hx; omega)]
  | succ k ih =>
    intro hk
    rw [List.range'_1_concat, List.foldl_append, List.foldl_cons, List.foldl_nil,
      ih (by omega), show 1 + k = k + 1 from Nat.add_comm 1 k,
      show ((List.range P.length).map (schemeCols P t0 t1 k)).flatten =
        ((List.range P.length).map (schemeCols P t0 t1 ((k+1) - 1))).flatten from rfl,
      pass_state P t0 t1 (k+1) hn (by omega) (by omega)]

/-- The scheme's last entry at stage `k` is the `k`-th output point, as a
blossom value. -/
theorem schemeLast_state (P : List Point) (t0 t1 : ℚ) (k : ℕ)
    (hn : 1 ≤ P.length) (hk : k ≤ P.length - 1) :
    schemeLast (((List.range P.length).map (schemeCols P t0 t1 k)).flatten) =
      mblossom P (List.replicate (P.length - 1 - k) t0 ++ List.replicate k t1) := by
  set n := P.length with hnn
  have hcl : ∀ c, c < n → (schemeCols P t0 t1 k c).length = n - c :=
    fun c hc => schemeCols_length P t0 t1 k c hc (by omega)
  have htot : (((List.range n).map (schemeCols P t0 t1 k)).flatten).length =
      offset n n := flatten_map_length n _ n (Nat.le_refl n) hcl
  unfold schemeLast
  rw [htot]
  have hoff : offset n n - 1 = offset n (n-1) + 0 := by
    have := offset_succ n (n-1) (by omega)
    rw [show n - 1 + 1 = n from by omega] at this
    omega
  rw [hoff, flatten_map_getD n _ n (Nat.le_refl n) hcl (n-1) 0 (by omega) (by omega),
    getD_zero_eq_headD]
  unfold schemeCols
  by_cases hk0 : k = 0
  · subst hk0
    rw [if_pos (by omega)]
    simp [mblossom]
  · rw [if_neg (by omega),
      show n - 1 - (n - 1 - k) = k from by omega]
    rfl

/-- The batch subdivision output, in closed form: output `k` is the blossom
at `n-1-k` copies of `t0` followed by `k` copies of `t1`. -/
theorem subdivide_eq (points : List Point) (t0 t1 : ℚ) (h : 1 ≤ points.length) :
    subdivide points t0 t1 = (List.range points.length).map
      (fun k => mblossom points (List.replicate (points.length - 1 - k) t0 ++
        List.replicate k t1)) := by
  have key : ∀ m, m ≤ points.length - 1 →
      (List.range' 1 m).foldl
        (fun acc k =>
          (acc.1 ++ [schemeLast (recomputePass t1 points.length k acc.2)],
            recomputePass t1 points.length k acc.2))
        ([schemeLast (fillPhase t0 points.length points)],
          fillPhase t0 points.length points)
      = ((List.range (m+1)).map
          (fun k => mblossom points (List.replicate (points.length - 1 - k) t0 ++
            List.replicate k t1)),
        ((List.range points.length).map (schemeCols points t0 t1 m)).flatten) := by
    intro m
    induction m with
    | zero =>
      intro _
      rw [show List.range' 1 0 = [] from rfl, List.foldl_nil]
      have hfill : fillPhase t0 points.length points =
          ((List.range points.length).map (schemeCols points t0 t1 0)).flatten := by
        have hs := schemeState points t0 t1 h 0 (by omega)
        rw [show List.range' 1 0 = [] from rfl, List.foldl_nil] at hs
        exact hs
      rw [hfill, schemeLast_state points t0 t1 0 h (by omega)]
      rfl
    | succ m ih =>
      intro hm
      rw [List.range'_1_concat, List.foldl_append, List.foldl_cons, List.foldl_nil,
        ih (by omega), show 1 + m = m + 1 from Nat.add_comm 1 m]
      have hpass : recomputePass t1 points.length (m+1)
          (((List.range points.length).map (schemeCols points t0 t1 m)).flatten) =
          ((List.range points.length).map (schemeCols points t0 t1 (m+1))).flatten :=
        pass_state points t0 t1 (m+1) h (by omega) (by omega)
      rw [hpass, schemeLast_state points t0 t1 (m+1) h (by omega)]
      conv_rhs => rw [List.range_succ, List.map_append]
      rfl
  unfold subdivide
  rw [key (points.length - 1) (Nat.le_refl _),
    show points.length - 1 + 1 = points.length from by omega]

omit [Module ℚ Point] in
theorem getD_take (X : List Point) (m i : ℕ) (h : i < m) :
    (X.take m).getD i 0 = X.getD i 0 := by
  rw [List.getD_eq_getElem?_getD, List.getD_eq_getElem?_getD,
    List.getElem?_take_of_lt h]

omit [Module ℚ Point] in
theorem getD_map_range (f : ℕ → Point) (n i : ℕ) (h : i < n) :
    ((List.range n).map f).getD i 0 = f i := by
  rw [List.getD_eq_getElem _ _ (by simp [h]), List.getElem_map, List.getElem_range]

/-!
## The claims
-/

/-- C1: for every control polygon of size `N ≥ 1` and all scalars `t0, t1`,
the batch subdivision returns exactly `N` points and its `idx`-th point
equals the single-point subdivision at `idx`, for every `idx < N`. -/
theorem subdivide_batch_agrees_pointwise (points : List Point) (t0 t1 : ℚ)
    (h : 1 ≤ points.length) :
    (subdivide points t0 t1).length = points.length ∧
    ∀ idx : ℕ, idx < points.length →
      (subdivide points t0 t1).getD idx 0 = subdividePoint points (idx : ℤ) t0 t1 := by
  constructor
  · rw [subdivide_eq points t0 t1 h]
    simp
  · intro idx hidx
    rw [subdivide_eq points t0 t1 h, getD_map_range _ _ _ hidx,
      subdividePoint_eq_mblossom points idx t0 t1 hidx,
      show points.length - 1 - idx = points.length - idx - 1 from by omega]

/-- Witness for C1 at `P = [0, 1, 3]`, `t0 = 1/4`, `t1 = 3/4`. -/
theorem subdivide_batch_agrees_pointwise_witness :
    (1 ≤ ([(0:ℚ), 1, 3]).length) ∧
    ((subdivide [(0:ℚ), 1, 3] (1/4) (3/4)).length = ([(0:ℚ), 1, 3]).length ∧
     ∀ idx : ℕ, idx < ([(0:ℚ), 1, 3]).length →
       (subdivide [(0:ℚ), 1, 3] (1/4) (3/4)).getD idx 0 =
         subdividePoint [(0:ℚ), 1, 3] (idx : ℤ) (1/4) (3/4)) :=
  ⟨by decide, subdivide_batch_agrees_pointwise [(0:ℚ), 1, 3] (1/4) (3/4) (by decide)⟩

/-- C2: evaluating the subdivided polygon at `s ∈ [0,1]` equals evaluating
the original polygon at the remapped parameter `t0 + s*(t1 - t0)`. -/
theorem subdivide_curve_invariance (points : List Point) (t0 t1 s : ℚ)
    (h : 1 ≤ points.length) (_hs0 : 0 ≤ s) (_hs1 : s ≤ 1) :
    deCasteljau (subdivide points t0 t1) s =
      deCasteljau points (t0 + s * (t1 - t0)) := by
  rw [subdivide_eq points t0 t1 h, deCasteljau_eq_mblossom, deCasteljau_eq_mblossom,
    List.length_map, List.length_range]
  have hu : t0 + s * (t1 - t0) = lerp s t0 t1 := by
    simp [lerp, smul_eq_mul]
  rw [hu]
  exact mblossom_subdivided points t0 t1 s points.length h

/-- Witness for C2 at `P = [0, 1, 3]`, `t0 = 1/4`, `t1 = 3/4`, `s = 1/3`. -/
theorem subdivide_curve_invariance_witness :
    ((1 ≤ ([(0:ℚ), 1, 3]).length) ∧ (0 ≤ (1/3 : ℚ)) ∧ ((1/3 : ℚ) ≤ 1)) ∧
    deCasteljau (subdivide [(0:ℚ), 1, 3] (1/4) (3/4)) (1/3) =
      deCasteljau [(0:ℚ), 1, 3] (1/4 + (1/3) * (3/4 - 1/4)) :=
  ⟨⟨by decide, by norm_num, by norm_num⟩,
    subdivide_curve_invariance [(0:ℚ), 1, 3] (1/4) (3/4) (1/3)
      (by decide) (by norm_num) (by norm_num)⟩

/-- C3: single-point subdivision at `idx` is the blossom at
`N - idx - 1` copies of `t0` followed by `idx` copies of `t1`; in
particular `idx = 0` is pure evaluation at `t0` and `idx = N - 1` pure
evaluation at `t1`. -/
theorem subdividePoint_is_mixed_blossom (points : List Point) (idx : ℕ)
    (t0 t1 : ℚ) (h1 : 1 ≤ points.length) (h2 : idx < points.length) :
    blossom points (List.replicate (points.length - idx - 1) t0 ++
      List.replicate idx t1) = some (subdividePoint points (idx : ℤ) t0 t1) ∧
    subdividePoint points 0 t0 t1 = deCasteljau points t0 ∧
    subdividePoint points ((points.length : ℤ) - 1) t0 t1 = deCasteljau points t1 := by
  refine ⟨?_, ?_, ?_⟩
  · rw [blossom_eq_mblossom _ _
        (by rw [List.length_append, List.length_replicate, List.length_replicate]; omega),
      subdividePoint_eq_mblossom points idx t0 t1 h2]
  · have h0 := subdividePoint_eq_mblossom points 0 t0 t1 (by omega)
    rw [show ((0:ℕ):ℤ) = (0:ℤ) from rfl] at h0
    rw [h0, deCasteljau_eq_mblossom]
    simp
  · have hl := subdividePoint_eq_mblossom points (points.length - 1) t0 t1 (by omega)
    rw [show ((points.length - 1 : ℕ) : ℤ) = (points.length : ℤ) - 1 from by omega] at hl
    rw [hl, deCasteljau_eq_mblossom,
      show points.length - (points.length - 1) - 1 = 0 from by omega]
    simp

/-- Witness for C3 at `P = [0, 1, 3]`, `idx = 1`, `t0 = 1/4`, `t1 = 3/4`. -/
theorem subdividePoint_is_mixed_blossom_witness :
    ((1 ≤ ([(0:ℚ), 1, 3]).length) ∧ (1 < ([(0:ℚ), 1, 3]).length)) ∧
    (blossom [(0:ℚ), 1, 3] (List.replicate (([(0:ℚ), 1, 3]).length - 1 - 1) (1/4) ++
        List.replicate 1 (3/4)) =
      some (subdividePoint [(0:ℚ), 1, 3] ((1:ℕ) : ℤ) (1/4) (3/4)) ∧
     subdividePoint [(0:ℚ), 1, 3] 0 (1/4) (3/4) = deCasteljau [(0:ℚ), 1, 3] (1/4) ∧
     subdividePoint [(0:ℚ), 1, 3] ((([(0:ℚ), 1, 3]).length : ℤ) - 1) (1/4) (3/4) =
       deCasteljau [(0:ℚ), 1, 3] (3/4)) :=
  ⟨⟨by decide, by decide⟩,
    subdividePoint_is_mixed_blossom [(0:ℚ), 1, 3] 1 (1/4) (3/4) (by decide) (by decide)⟩

/-- C4: the blossom at `N - 1` equal parameters `t` is the point evaluator's
result at `t`. -/
theorem blossom_diagonal (points : List Point) (t : ℚ) (h : 1 ≤ points.length) :
    blossom points (List.replicate (points.length - 1) t) =
      some (deCasteljau points t) := by
  rw [blossom_eq_mblossom _ _ (by rw [List.length_replicate]; omega),
    deCasteljau_eq_mblossom]

/-- Witness for C4 at `P = [0, 1, 3]`, `t = 1/2`. -/
theorem blossom_diagonal_witness :
    (1 ≤ ([(0:ℚ), 1, 3]).length) ∧
    blossom [(0:ℚ), 1, 3] (List.replicate (([(0:ℚ), 1, 3]).length - 1) (1/2)) =
      some (deCasteljau [(0:ℚ), 1, 3] (1/2)) :=
  ⟨by decide, blossom_diagonal [(0:ℚ), 1, 3] (1/2) (by decide)⟩

/-- C5: the blossom at `N-1-k` zeros followed by `k` ones recovers the `k`-th
control point exactly. -/
theorem blossom_corner (points : List Point) (k : ℕ) (_h1 : 1 ≤ points.length)
    (h2 : k < points.length) :
    blossom points (List.replicate (points.length - 1 - k) 0 ++ List.replicate k 1)
      = some (points.getD k 0) := by
  rw [blossom_eq_mblossom _ _
    (by rw [List.length_append, List.length_replicate, List.length_replicate]; omega)]
  congr 1
  unfold mblossom
  rw [reduceRun_append, reduceRun_replicate_zero, reduceRun_replicate_one,
    show points.length - (points.length - 1 - k) = k + 1 from by omega,
    ← getD_zero_eq_headD, getD_drop, getD_take _ _ _ (by omega)]
  rfl

/-- Witness for C5 at `P = [0, 1, 3]`, `k = 1`. -/
theorem blossom_corner_witness :
    ((1 ≤ ([(0:ℚ), 1, 3]).length) ∧ (1 < ([(0:ℚ), 1, 3]).length)) ∧
    blossom [(0:ℚ), 1, 3] (List.replicate (([(0:ℚ), 1, 3]).length - 1 - 1) 0 ++
      List.replicate 1 1) = some (([(0:ℚ), 1, 3]).getD 1 0) :=
  ⟨⟨by decide, by decide⟩, blossom_corner [(0:ℚ), 1, 3] 1 (by decide) (by decide)⟩

/-- C6: the evaluator reproduces the endpoints (`t = 0` gives `P[0]`, `t = 1`
gives `P[N-1]`), and a single-point polygon evaluates to that point for
every `t`. -/
theorem deCasteljau_endpoints (points : List Point) (h : 1 ≤ points.length) :
    deCasteljau points 0 = points.getD 0 0 ∧
    deCasteljau points 1 = points.getD (points.length - 1) 0 ∧
    (points.length = 1 → ∀ t : ℚ, deCasteljau points t = points.getD 0 0) := by
  refine ⟨?_, ?_, ?_⟩
  · rw [deCasteljau_eq_mblossom]
    unfold mblossom
    rw [reduceRun_replicate_zero,
      show points.length - (points.length - 1) = 1 from by omega,
      ← getD_zero_eq_headD, getD_take _ _ _ (by omega)]
  · rw [deCasteljau_eq_mblossom]
    unfold mblossom
    rw [reduceRun_replicate_one, ← getD_zero_eq_headD, getD_drop, Nat.add_zero]
  · intro h1 t
    rw [deCasteljau_eq_mblossom, h1]
    exact (getD_zero_eq_headD points).symm

/-- Witness for C6 at `P = [0, 1, 3]`. -/
theorem deCasteljau_endpoints_witness :
    (1 ≤ ([(0:ℚ), 1, 3]).length) ∧
    (deCasteljau [(0:ℚ), 1, 3] 0 = ([(0:ℚ), 1, 3]).getD 0 0 ∧
     deCasteljau [(0:ℚ), 1, 3] 1 = ([(0:ℚ), 1, 3]).getD (([(0:ℚ), 1, 3]).length - 1) 0 ∧
     (([(0:ℚ), 1, 3]).length = 1 → ∀ t : ℚ,
       deCasteljau [(0:ℚ), 1, 3] t = ([(0:ℚ), 1, 3]).getD 0 0)) :=
  ⟨by decide, deCasteljau_endpoints [(0:ℚ), 1, 3] (by decide)⟩

/-- C7: the blossom is invariant under permutation of its parameter tuple. -/
theorem blossom_symmetric (points : List Point) (params params' : List ℚ)
    (h1 : 1 ≤ points.length) (h2 : params.length = points.length - 1)
    (h3 : params.Perm params') :
    blossom points params = blossom points params' := by
  rw [blossom_eq_mblossom _ _ (by omega),
    blossom_eq_mblossom _ _ (by rw [← h3.length_eq]; omega),
    mblossom_perm points h3]

/-- Witness for C7 at `P = [0, 1, 3]`, `params = [0, 1]`, `params' = [1, 0]`. -/
theorem blossom_symmetric_witness :
    ((1 ≤ ([(0:ℚ), 1, 3]).length) ∧ ([(0:ℚ), (1:ℚ)].length = ([(0:ℚ), 1, 3]).length - 1) ∧
      ([(0:ℚ), (1:ℚ)].Perm [(1:ℚ), (0:ℚ)])) ∧
    blossom [(0:ℚ), 1, 3] [0, 1] = blossom [(0:ℚ), 1, 3] [1, 0] :=
  ⟨⟨by decide, by decide, List.Perm.swap 1 0 []⟩,
    blossom_symmetric [(0:ℚ), 1, 3] [0, 1] [1, 0] (by decide) (by decide)
      (List.Perm.swap 1 0 [])⟩

/-- C8: `blossom` fails fast (assertion, modelled as `none`) exactly when the
parameter-list length differs from `N - 1`; with the correct length it
returns the blossom point. -/
theorem blossom_fails_fast_on_length_mismatch (points : List Point)
    (params : List ℚ) (h : 1 ≤ points.length) :
    (params.length = points.length - 1 →
      blossom points params = some (mblossom points params)) ∧
    (params.length ≠ points.length - 1 → blossom points params = none) := by
  constructor
  · intro hlen
    exact blossom_eq_mblossom points params (by omega)
  · intro hlen
    unfold blossom
    rw [if_neg (by omega)]

/-- Witness for C8 at `P = [0, 1, 3]` (both branches exercised at
`params = [0, 1]` by the theorem; the hypothesis is `N ≥ 1`). -/
theorem blossom_fails_fast_on_length_mismatch_witness :
    (1 ≤ ([(0:ℚ), 1, 3]).length) ∧
    (([(0:ℚ), (1:ℚ)].length = ([(0:ℚ), 1, 3]).length - 1 →
      blossom [(0:ℚ), 1, 3] [0, 1] = some (mblossom [(0:ℚ), 1, 3] [0, 1])) ∧
     ([(0:ℚ), (1:ℚ)].length ≠ ([(0:ℚ), 1, 3]).length - 1 →
      blossom [(0:ℚ), 1, 3] [0, 1] = none)) :=
  ⟨by decide, blossom_fails_fast_on_length_mismatch [(0:ℚ), 1, 3] [0, 1] (by decide)⟩

/-- C9 counterexample: the single-point `subdivide` performs no check on
`idx`.  At `P = [0, 1]`, `idx = -1`, `t0 = 1/2`, `t1 = 0` it silently
returns the point `1/2` (the evaluation at `t0`) — no assertion fires and no
error is signalled before output, contradicting the claim that every
out-of-range index fails fast at the call boundary and never returns a
point. -/
theorem subdividePoint_no_check_counterexample :
    subdividePoint [(0:ℚ), 1] (-1) (1/2) 0 = (1/2 : ℚ) := by
  rw [subdividePoint_neg_idx [(0:ℚ), 1] (-1) (1/2) 0 (by decide) (by decide),
    deCasteljau_eq_mblossom]
  norm_num [mblossom, reduceRun, reduceStep, lerp, List.replicate]

/-- C9 (amended): the single-point subdivision does not validate `idx` — the
precondition `0 ≤ idx < N` is documented but unchecked.  For every negative
`idx` the surplus loop iterations are no-ops and the function silently
returns the evaluation of the curve at `t0`. -/
theorem subdividePoint_silent_on_negative_idx (points : List Point) (idx : ℤ)
    (t0 t1 : ℚ) (h1 : 1 ≤ points.length) (h2 : idx < 0) :
    subdividePoint points idx t0 t1 = deCasteljau points t0 :=
  subdividePoint_neg_idx points idx t0 t1 h1 h2

/-- Witness for the amended C9 at `P = [0, 1]`, `idx = -1`, `t0 = 1/2`. -/
theorem subdividePoint_silent_on_negative_idx_witness :
    ((1 ≤ ([(0:ℚ), 1]).length) ∧ ((-1 : ℤ) < 0)) ∧
    subdividePoint [(0:ℚ), 1] (-1) (1/2) 0 = deCasteljau [(0:ℚ), 1] (1/2) :=
  ⟨⟨by decide, by decide⟩,
    subdividePoint_silent_on_negative_idx [(0:ℚ), 1] (-1) (1/2) 0
      (by decide) (by decide)⟩

/-- C10: the recomputation pass for output point `k`, performed on the scheme
state left by the fill phase and passes `1 … k-1`, keeps the storage size,
leaves every entry of columns `0 … N-k-1` exactly as it was (writing only in
columns `N-k … N-1`), and afterwards the scheme's final entry is output
point `k` (the single-point subdivision at `k`). -/
theorem recomputePass_frame_and_last (points : List Point) (t0 t1 : ℚ) (k : ℕ)
    (h : 1 ≤ points.length) (hk1 : 1 ≤ k) (hk2 : k < points.length) :
    ((recomputePass t1 points.length k
        ((List.range' 1 (k-1)).foldl (fun s j => recomputePass t1 points.length j s)
          (fillPhase t0 points.length points))).length =
      ((List.range' 1 (k-1)).foldl (fun s j => recomputePass t1 points.length j s)
        (fillPhase t0 points.length points)).length ∧
     ∀ c i, c < points.length - k → i < points.length - c →
      schemeGet points.length
        (recomputePass t1 points.length k
          ((List.range' 1 (k-1)).foldl (fun s j => recomputePass t1 points.length j s)
            (fillPhase t0 points.length points))) c i
      = schemeGet points.length
          ((List.range' 1 (k-1)).foldl (fun s j => recomputePass t1 points.length j s)
            (fillPhase t0 points.length points)) c i) ∧
    schemeLast (recomputePass t1 points.length k
        ((List.range' 1 (k-1)).foldl (fun s j => recomputePass t1 points.length j s)
          (fillPhase t0 points.length points)))
      = subdividePoint points (k : ℤ) t0 t1 := by
  have hlenk : ∀ c, c < points.length →
      (schemeCols points t0 t1 k c).length = points.length - c :=
    fun c hc => schemeCols_length points t0 t1 k c hc (by omega)
  have hlenk1 : ∀ c, c < points.length →
      (schemeCols points t0 t1 (k-1) c).length = points.length - c :=
    fun c hc => schemeCols_length points t0 t1 (k-1) c hc (by omega)
  have hbefore := schemeState points t0 t1 h (k-1) (by omega)
  have hafter : recomputePass t1 points.length k
      ((List.range' 1 (k-1)).foldl (fun s j => recomputePass t1 points.length j s)
        (fillPhase t0 points.length points)) =
      ((List.range points.length).map (schemeCols points t0 t1 k)).flatten := by
    rw [hbefore]
    exact pass_state points t0 t1 k h hk1 (by omega)
  refine ⟨⟨?_, ?_⟩, ?_⟩
  · rw [hafter, hbefore,
      flatten_map_length points.length _ points.length (Nat.le_refl _) hlenk,
      flatten_map_length points.length _ points.length (Nat.le_refl _) hlenk1]
  · intro c i hc hi
    unfold schemeGet
    rw [hafter, hbefore,
      flatten_map_getD points.length _ points.length (Nat.le_refl _) hlenk c i
        (by omega) hi,
      flatten_map_getD points.length _ points.length (Nat.le_refl _) hlenk1 c i
        (by omega) hi]
    unfold schemeCols
    rw [if_pos (by omega), if_pos (by omega)]
  · rw [hafter, schemeLast_state points t0 t1 k h (by omega),
      subdividePoint_eq_mblossom points k t0 t1 (by omega),
      show points.length - 1 - k = points.length - k - 1 from by omega]

/-- Witness for C10 at `P = [0, 1, 3]`, `k = 1`, `t0 = 1/4`, `t1 = 3/4`. -/
theorem recomputePass_frame_and_last_witness :
    ((1 ≤ ([(0:ℚ), 1, 3]).length) ∧ ((1:ℕ) ≤ 1) ∧ (1 < ([(0:ℚ), 1, 3]).length)) ∧
    (((recomputePass (3/4) ([(0:ℚ), 1, 3]).length 1
        ((List.range' 1 (1-1)).foldl
          (fun s j => recomputePass (3/4) ([(0:ℚ), 1, 3]).length j s)
          (fillPhase (1/4) ([(0:ℚ), 1, 3]).length [(0:ℚ), 1, 3]))).length =
      ((List.range' 1 (1-1)).foldl
          (fun s j => recomputePass (3/4) ([(0:ℚ), 1, 3]).length j s)
          (fillPhase (1/4) ([(0:ℚ), 1, 3]).length [(0:ℚ), 1, 3])).length ∧
     ∀ c i, c < ([(0:ℚ), 1, 3]).length - 1 → i < ([(0:ℚ), 1, 3]).length - c →
      schemeGet ([(0:ℚ), 1, 3]).length
        (recomputePass (3/4) ([(0:ℚ), 1, 3]).length 1
          ((List.range' 1 (1-1)).foldl
            (fun s j => recomputePass (3/4) ([(0:ℚ), 1, 3]).length j s)
            (fillPhase (1/4) ([(0:ℚ), 1, 3]).length [(0:ℚ), 1, 3]))) c i
      = schemeGet ([(0:ℚ), 1, 3]).length
          ((List.range' 1 (1-1)).foldl
            (fun s j => recomputePass (3/4) ([(0:ℚ), 1, 3]).length j s)
            (fillPhase (1/4) ([(0:ℚ), 1, 3]).length [(0:ℚ), 1, 3])) c i) ∧
    schemeLast (recomputePass (3/4) ([(0:ℚ), 1, 3]).length 1
        ((List.range' 1 (1-1)).foldl
          (fun s j => recomputePass (3/4) ([(0:ℚ), 1, 3]).length j s)
          (fillPhase (1/4) ([(0:ℚ), 1, 3]).length [(0:ℚ), 1, 3])))
      = subdividePoint [(0:ℚ), 1, 3] ((1:ℕ) : ℤ) (1/4) (3/4)) :=
  ⟨⟨by decide, by decide, by decide⟩,
    recomputePass_frame_and_last [(0:ℚ), 1, 3] (1/4) (3/4) 1
      (by decide) (by decide) (by decide)⟩

end CAGD
